import Mathlib

/-!
Verification of the terminal text-reflow engine of `TerminalAI.py`
(`wrap_text_for_terminal`, lines 32-129).

Strings are modelled as `List Char` (one Python code point per element), and
Python string operations (`split`, `join`, `strip`, slicing) are embedded as
executable Lean functions.  A call that can raise is modelled as
`Except Unit`: `wrap_text_for_terminal` returns `.error ()` exactly when the
underlying `textwrap.fill` call would raise `ValueError`.

The terminal column count queried by `get_terminal_size()` is passed in as an
explicit `termCols` argument.
-/

set_option maxRecDepth 100000

/-- The `textwrap._whitespace` constant: the six ASCII characters that the
`replace_whitespace` preprocessing step translates to a plain space (space,
tab, newline, carriage return, vertical tab, form feed).  This is narrower
than Python's `str.isspace()`, which is `isStrSpace` below. -/
def isPySpace (c : Char) : Bool :=
  c = ' ' || c = '\t' || c = '\n' || c = '\r' || c = '\x0b' || c = '\x0c'

/-- Python's `str.isspace()` character set (CPython `Py_UNICODE_ISSPACE`):
U+0009-U+000D, U+001C-U+001F, space, U+0085, U+00A0, U+1680, U+2000-U+200A,
U+2028, U+2029, U+202F, U+205F and U+3000.  This is the set stripped by
`str.strip`/`lstrip`/`rstrip` and matched by the regex class `\s` that
`textwrap` uses to delimit tokens. -/
def isStrSpace (c : Char) : Bool :=
  c == '\t' || c == '\n' || c == '\x0b' || c == '\x0c' || c == '\r' ||
  c == '\x1c' || c == '\x1d' || c == '\x1e' || c == '\x1f' || c == ' ' ||
  c == '\x85' || c == '\u00a0' || c == '\u1680' ||
  c == '\u2000' || c == '\u2001' || c == '\u2002' || c == '\u2003' || c == '\u2004' ||
  c == '\u2005' || c == '\u2006' || c == '\u2007' || c == '\u2008' || c == '\u2009' ||
  c == '\u200a' || c == '\u2028' || c == '\u2029' || c == '\u202f' || c == '\u205f' ||
  c == '\u3000'

/-- Python `s.lstrip()`. -/
def lstripL (l : List Char) : List Char := l.dropWhile isStrSpace

/-- Python `s.rstrip()`. -/
def rstripL (l : List Char) : List Char := (l.reverse.dropWhile isStrSpace).reverse

/-- Python `s.strip()`. -/
def stripL (l : List Char) : List Char := rstripL (lstripL l)

/-- Python `s.split(sep)` for a one-character separator `sep`.
Always returns at least one (possibly empty) part. -/
def splitOnChar (sep : Char) : List Char → List (List Char)
  | [] => [[]]
  | c :: r =>
    if c = sep then [] :: splitOnChar sep r
    else
      match splitOnChar sep r with
      | [] => [[c]]
      | p :: ps => (c :: p) :: ps

/-- Python `text.split('\n')`. -/
def splitNL (t : List Char) : List (List Char) := splitOnChar '\n' t

/-- Python `text.split('\n\n')`: split on non-overlapping occurrences of two
consecutive newlines, scanning left to right. -/
def splitSep2 : List Char → List (List Char)
  | [] => [[]]
  | [c] => [[c]]
  | c :: c2 :: r =>
    if c = '\n' ∧ c2 = '\n' then [] :: splitSep2 r
    else
      match splitSep2 (c2 :: r) with
      | [] => [[c]]
      | p :: ps => (c :: p) :: ps

/-- Python `sep.join(parts)`. -/
def joinSep {α : Type} (sep : List α) : List (List α) → List α
  | [] => []
  | [p] => p
  | p :: ps => p ++ sep ++ joinSep sep ps

/-- Python slice index normalisation: a negative index counts from the end and
clamps at zero. -/
def pyIndex (l : List Char) (i : Int) : Nat :=
  if 0 ≤ i then i.toNat else l.length - (-i).toNat

/-- Python `l[:i]`. -/
def pySliceTo (l : List Char) (i : Int) : List Char := l.take (pyIndex l i)

/-- Python `l[i:]`. -/
def pySliceFrom (l : List Char) (i : Int) : List Char := l.drop (pyIndex l i)

/-- Modelled from the spec: the `replace_whitespace` preprocessing step of the
word-fill primitive (`textwrap.fill`, Python standard library, not part of
`src/`): each whitespace character is replaced by a plain space before
splitting into tokens. -/
def replaceWS (c : Char) : Char := if isPySpace c then ' ' else c

/-- Modelled from the spec: the tokenizer of the word-fill primitive.  The
input is split into maximal runs of whitespace and of non-whitespace
("whitespace-delimited tokens" with the whitespace runs kept as separator
chunks, as `textwrap` does).  The optional refinement that a token "may break
after a hyphen" (`break_on_hyphens`) is not modelled; none of the concrete
inputs used below contains a hyphen. `acc` holds the current run reversed. -/
def runsAux (cls : Bool) (acc : List Char) : List Char → List (List Char)
  | [] => [acc.reverse]
  | c :: cs =>
    if isStrSpace c = cls then runsAux cls (c :: acc) cs
    else acc.reverse :: runsAux (isStrSpace c) [c] cs

/-- Modelled from the spec: split a string into whitespace / non-whitespace
runs (the chunk list fed to the greedy line packer). -/
def splitRuns : List Char → List (List Char)
  | [] => []
  | c :: cs => runsAux (isStrSpace c) [c] cs

/-- Sum of the chunk lengths (`cur_len` in `textwrap`). -/
def sumLen (cs : List (List Char)) : Nat := cs.foldr (fun c n => c.length + n) 0

/-- Fuel bound for the greedy packer: total characters plus chunk count. -/
def chunksMeasure (cs : List (List Char)) : Nat :=
  cs.foldr (fun c n => c.length + 1 + n) 0

/-- Modelled from the spec: the inner loop of the greedy packer — move chunks
onto the current line while the accumulated length stays within the width.
Returns (consumed chunks, remaining chunks). -/
def takeChunks (w : Nat) (curLen : Nat) : List (List Char) → List (List Char) × List (List Char)
  | [] => ([], [])
  | c :: cs =>
    if curLen + c.length ≤ w then
      let r := takeChunks w (curLen + c.length) cs
      (c :: r.1, r.2)
    else ([], c :: cs)

/-- Modelled from the spec: drop a trailing whitespace chunk from the current
line before emitting it (`drop_whitespace`). -/
def dropTrailingWS (cur : List (List Char)) : List (List Char) :=
  match cur.getLast? with
  | some last => if last.all isStrSpace then cur.dropLast else cur
  | none => cur

/-- Modelled from the spec: `_handle_long_word` — when the next chunk is
longer than the width ("a token itself longer than width"), cut it at the
space left on the current line (`break_long_words`); the cut piece joins the
current line and the remainder stays in the chunk stream. -/
def handleLong (w : Nat) (consumed : List (List Char)) :
    List (List Char) → List (List Char) × List (List Char)
  | [] => (consumed, [])
  | h :: t =>
    if w < h.length then
      let spaceLeft := if w < 1 then 1 else w - sumLen consumed
      (consumed ++ [h.take spaceLeft], h.drop spaceLeft :: t)
    else (consumed, h :: t)

/-- Modelled from the spec: the greedy line packer of the word-fill primitive
("greedily pack whitespace-delimited tokens onto lines not exceeding width; a
token itself longer than width is broken at the width boundary",
`break_long_words`).  One recursion step builds one output line: drop a
leading whitespace chunk (once a line has been emitted), move chunks while
they fit, cut a chunk longer than the width at the remaining space, drop a
trailing whitespace chunk, and emit the line if it is nonempty.  `fuel` only
bounds the recursion; every call below supplies more fuel than the loop can
consume. -/
def wrapChunksGo (w : Nat) : Nat → Bool → List (List Char) → List (List Char)
  | 0, _, _ => []
  | _, _, [] => []
  | fuel + 1, emitted, c0 :: cs0 =>
    let chunks1 := if emitted && c0.all isStrSpace then cs0 else c0 :: cs0
    let tk := takeChunks w 0 chunks1
    let hl := handleLong w tk.1 tk.2
    let cur2 := dropTrailingWS hl.1
    if cur2.isEmpty then wrapChunksGo w fuel emitted hl.2
    else cur2.flatten :: wrapChunksGo w fuel true hl.2

/-- Modelled from the spec: the word-fill primitive, Python
`textwrap.fill(s, width=w, break_long_words=True, break_on_hyphens=True)`
as called from `wrap_text_for_terminal` (the primitive itself is standard
library code, absent from `src/`; the spec describes it in §4).  CPython
raises `ValueError("invalid width ...")` when the width is not positive,
modelled as `.error ()`.  Tab expansion (`expandtabs`) and hyphen breaking
are not modelled; no concrete input used below contains a tab or hyphen. -/
def textwrap_fill (s : List Char) (w : Int) : Except Unit (List Char) :=
  if w ≤ 0 then .error ()
  else
    let chunks := splitRuns (s.map replaceWS)
    .ok (joinSep ['\n'] (wrapChunksGo w.toNat (chunksMeasure chunks + 1) false chunks))

/-- The box-drawing characters sniffed by `wrap_text_for_terminal`, line 43:
`'│' in text or '─' in text or '┌' in text or '┐' in text or '└' in text or
'┘' in text`. -/
def isBoxChar (c : Char) : Bool :=
  c = '│' || c = '─' || c = '┌' || c = '┐' || c = '└' || c = '┘'

/-- Line 43: whether any box-drawing character occurs anywhere in the text. -/
def hasBox (t : List Char) : Bool := t.any isBoxChar

/-- Lines 54-65: the greedy reassembly of the cell fragments of an over-length
table line. `current` is `current_line`; the separator is appended back after
every fragment except the last; a line is flushed when the next fragment would
overflow, and only nonempty lines are flushed. -/
def cellLoop (w : Int) (current : List Char) : List (List Char) → List (List Char)
  | [] => if current.isEmpty then [] else [current]
  | p :: ps =>
    let piece := p ++ (if ps.isEmpty then [] else ['│'])
    let test := current ++ piece
    if (test.length : Int) ≤ w then cellLoop w test ps
    else (if current.isEmpty then [] else [current]) ++ cellLoop w piece ps

/-- Lines 52-65: split an over-length table line on `'│'` and reassemble. -/
def tableCellSplit (w : Int) (line : List Char) : List (List Char) :=
  cellLoop w [] (splitOnChar '│' line)

/-- Lines 47-71: processing of one line on the table-preserving path.  The
result is the list of entries appended to `wrapped_lines` for this line (a
`textwrap.fill` result is appended as a single, possibly multi-line, entry). -/
def tableLineOut (w : Int) (line : List Char) : Except Unit (List (List Char)) :=
  if (line.length : Int) ≤ w then .ok [line]
  else if line.contains '│' then .ok (tableCellSplit w line)
  else
    match textwrap_fill line w with
    | .error e => .error e
    | .ok f => .ok [f]

/-- Sequential mapping over `Except`, mirroring a Python `for` loop that can
raise: the first raised error aborts the whole computation. -/
def mapME {α β : Type} (f : α → Except Unit β) : List α → Except Unit (List β)
  | [] => .ok []
  | a :: as =>
    match f a with
    | .error e => .error e
    | .ok b =>
      match mapME f as with
      | .error e => .error e
      | .ok bs => .ok (b :: bs)

/-- Lines 45-72: the table-preserving path over the whole input. -/
def tableReflow (w : Int) (t : List Char) : Except Unit (List Char) :=
  match mapME (tableLineOut w) (splitNL t) with
  | .error e => .error e
  | .ok ls => .ok (joinSep ['\n'] ls.flatten)

/-- Lines 80-82: the code-paragraph classification, exactly as written:
`paragraph.strip().startswith('```') or paragraph.strip().startswith('    ')
or paragraph.strip().startswith('\t')`.  (Since `strip()` removes leading
whitespace, the second and third tests can never be true; they are embedded
faithfully.) -/
def paraIsCode (p : List Char) : Bool :=
  "```".toList.isPrefixOf (stripL p) || "    ".toList.isPrefixOf (stripL p)
    || "\t".toList.isPrefixOf (stripL p)

/-- Line 91: `len(line) - len(line.lstrip())`, the measured indent width. -/
def pyIndent (line : List Char) : Nat :=
  line.length - (lstripL line).length

/-- Lines 86-110: processing of one line of a code paragraph.  The result is
the list of entries appended to `wrapped_lines` for this line. -/
def codeLine (w : Int) (line : List Char) : Except Unit (List (List Char)) :=
  if (line.length : Int) ≤ w then .ok [line]
  else
    let indent := pyIndent line
    let indentStr := line.take indent
    let content := line.drop indent
    let contentWidth : Int := w - indent
    if 20 < contentWidth then
      match textwrap_fill content contentWidth with
      | .error e => .error e
      | .ok f => .ok ((splitNL f).map (fun l2 => indentStr ++ l2))
    else
      .ok ([pySliceTo line w] ++ (if w < (line.length : Int) then [pySliceFrom line w] else []))

/-- Lines 116-126: processing of one line of a prose paragraph.  A
whitespace-only line becomes an empty line; a line within the width is kept;
an over-length line is word-filled (the fill result is one entry). -/
def proseLine (w : Int) (line : List Char) : Except Unit (List (List Char)) :=
  if (stripL line).length = 0 then .ok [[]]
  else if (line.length : Int) ≤ w then .ok [line]
  else
    match textwrap_fill line w with
    | .error e => .error e
    | .ok f => .ok [f]

/-- Lines 78-127: processing of one paragraph: classify as code or prose,
process line by line, rejoin with newlines. -/
def wrapParagraph (w : Int) (p : List Char) : Except Unit (List Char) :=
  if paraIsCode p then
    match mapME (codeLine w) (splitNL p) with
    | .error e => .error e
    | .ok ls => .ok (joinSep ['\n'] ls.flatten)
  else
    match mapME (proseLine w) (splitNL p) with
    | .error e => .error e
    | .ok ls => .ok (joinSep ['\n'] ls.flatten)

/-- Lines 74-129: split into paragraphs on blank lines, process each, rejoin
with blank lines. -/
def paragraphReflow (w : Int) (t : List Char) : Except Unit (List Char) :=
  match mapME (wrapParagraph w) (splitSep2 t) with
  | .error e => .error e
  | .ok ps => .ok (joinSep ['\n', '\n'] ps)

/-- Lines 32-129: `wrap_text_for_terminal(text, width)`.  `termCols` is the
column count `get_terminal_size()` would report; it is consulted only when
`width` is `None` (line 37-40: `width = max(50, terminal_width - 15)`). -/
def wrap_text_for_terminal (termCols : Int) (text : List Char) (width? : Option Int) :
    Except Unit (List Char) :=
  let width := match width? with
    | none => max 50 (termCols - 15)
    | some w => w
  if hasBox text then tableReflow width text
  else paragraphReflow width text

/-- The spec's §8 code-wrap scenario: a 200-character line with a 4-space
indent ("    " followed by 196 characters of content). -/
def c5line : List Char :=
  "    abcde abcde abcde abcde abcde abcde abcde abcde abcde abcde abcde abcde abcde abcde abcde abcde abcde abcde abcde abcde abcde abcde abcde abcde abcde abcde abcde abcde abcde abcde abcde abcde abcd".toList

/-! ### Basic lemmas about the splitters and joiners -/

theorem splitOnChar_ne_nil (sep : Char) (t : List Char) : splitOnChar sep t ≠ [] := by
  induction t with
  | nil => simp [splitOnChar]
  | cons c r ih =>
    simp only [splitOnChar]
    by_cases h : c = sep
    · simp [h]
    · simp only [if_neg h]
      cases hr : splitOnChar sep r with
      | nil => simp
      | cons p ps => simp

theorem joinSep_cons {α : Type} (sep : List α) (p : List α) (ps : List (List α)) (h : ps ≠ []) :
    joinSep sep (p :: ps) = p ++ sep ++ joinSep sep ps := by
  cases ps with
  | nil => exact absurd rfl h
  | cons q qs => rfl

theorem joinSep_splitOnChar (sep : Char) (t : List Char) :
    joinSep [sep] (splitOnChar sep t) = t := by
  induction t with
  | nil => rfl
  | cons c r ih =>
    simp only [splitOnChar]
    by_cases h : c = sep
    · subst h
      rw [if_pos rfl, joinSep_cons _ _ _ (splitOnChar_ne_nil _ _)]
      simpa using ih
    · rw [if_neg h]
      cases hr : splitOnChar sep r with
      | nil => exact absurd hr (splitOnChar_ne_nil _ _)
      | cons p ps =>
        rw [hr] at ih
        cases ps with
        | nil =>
          simp only [joinSep] at ih ⊢
          simp [ih]
        | cons q qs =>
          rw [joinSep_cons _ _ _ (by simp)] at ih
          rw [joinSep_cons _ _ _ (by simp)]
          simp only [List.cons_append]
          rw [ih]

theorem joinSep_head_append {α : Type} (sep : List α) (x y : List α) (ls : List (List α)) :
    joinSep sep ((x ++ y) :: ls) = x ++ joinSep sep (y :: ls) := by
  cases ls with
  | nil => rfl
  | cons l ls' =>
    rw [joinSep_cons sep (x ++ y) (l :: ls') (by simp), joinSep_cons sep y (l :: ls') (by simp)]
    simp

theorem splitSep2_ne_nil (t : List Char) : splitSep2 t ≠ [] := by
  induction t using splitSep2.induct with
  | case1 => simp [splitSep2]
  | case2 c => simp [splitSep2]
  | case3 c c2 r h ih =>
    simp only [splitSep2, if_pos h]
    simp
  | case4 c c2 r h heq ih => exact absurd heq ih
  | case5 c c2 r h p ps heq ih =>
    simp only [splitSep2, if_neg h, heq]
    simp

theorem joinSep_splitSep2 (t : List Char) :
    joinSep ['\n', '\n'] (splitSep2 t) = t := by
  induction t using splitSep2.induct with
  | case1 => rfl
  | case2 c => rfl
  | case3 c c2 r h ih =>
    obtain ⟨h1, h2⟩ := h
    subst h1; subst h2
    rw [show splitSep2 ('\n' :: '\n' :: r) = [] :: splitSep2 r from by simp [splitSep2]]
    rw [joinSep_cons _ _ _ (splitSep2_ne_nil _)]
    simpa using ih
  | case4 c c2 r h heq ih => exact absurd heq (splitSep2_ne_nil _)
  | case5 c c2 r h p ps heq ih =>
    simp only [splitSep2, if_neg h, heq]
    rw [heq] at ih
    cases ps with
    | nil =>
      simp only [joinSep] at ih ⊢
      simp [ih]
    | cons q qs =>
      rw [joinSep_cons _ _ _ (by simp)] at ih
      rw [joinSep_cons _ _ _ (by simp)]
      simp only [List.cons_append]
      rw [ih]

theorem splitNL_ne_nil (t : List Char) : splitNL t ≠ [] :=
  splitOnChar_ne_nil '\n' t

theorem joinSep_splitNL (t : List Char) : joinSep ['\n'] (splitNL t) = t :=
  joinSep_splitOnChar '\n' t

theorem splitNL_nil : splitNL [] = [[]] := rfl

theorem splitNL_cons_nl (r : List Char) : splitNL ('\n' :: r) = [] :: splitNL r := by
  simp [splitNL, splitOnChar]

theorem splitNL_cons_ne (c : Char) (r : List Char) (h : ¬c = '\n') :
    splitNL (c :: r) =
      match splitNL r with
      | [] => [[c]]
      | p :: ps => (c :: p) :: ps := by
  simp only [splitNL, splitOnChar, if_neg h]

theorem joinSep_cons_head {α : Type} (sep : List α) (a : α) (y : List α) (ls : List (List α)) :
    joinSep sep ((a :: y) :: ls) = a :: joinSep sep (y :: ls) :=
  joinSep_head_append sep [a] y ls

theorem splitNL_splitSep2 (t : List Char) :
    splitNL t = joinSep [[]] ((splitSep2 t).map splitNL) := by
  induction t using splitSep2.induct with
  | case1 => rfl
  | case2 c => rfl
  | case3 c c2 r h ih =>
    obtain ⟨h1, h2⟩ := h
    subst h1; subst h2
    rw [show splitSep2 ('\n' :: '\n' :: r) = [] :: splitSep2 r from by simp [splitSep2]]
    rw [splitNL_cons_nl, splitNL_cons_nl]
    cases hsp : splitSep2 r with
    | nil => exact absurd hsp (splitSep2_ne_nil _)
    | cons q qs =>
      rw [hsp] at ih
      simp only [List.map_cons]
      rw [joinSep_cons _ _ _ (by simp), ih]
      simp [splitNL_nil]
  | case4 c c2 r h heq ih => exact absurd heq (splitSep2_ne_nil _)
  | case5 c c2 r h p ps heq ih =>
    rw [show splitSep2 (c :: c2 :: r) = (c :: p) :: ps from by
      simp only [splitSep2, if_neg h, heq]]
    rw [heq] at ih
    simp only [List.map_cons] at ih ⊢
    by_cases hc : c = '\n'
    · subst hc
      rw [splitNL_cons_nl, ih, splitNL_cons_nl, joinSep_cons_head]
    · rw [splitNL_cons_ne c _ hc]
      cases hnl : splitNL (c2 :: r) with
      | nil => exact absurd hnl (splitNL_ne_nil _)
      | cons p2 ps2 =>
        rw [hnl] at ih
        cases hp : splitNL p with
        | nil => exact absurd hp (splitNL_ne_nil _)
        | cons q1 qs1 =>
          rw [hp] at ih
          rw [joinSep_cons_head] at ih
          rw [splitNL_cons_ne c _ hc, hp, joinSep_cons_head]
          injection ih with ih1 ih2
          rw [ih1, ih2]

theorem mem_joinSep_of_mem {α : Type} (sep : List α) {ls : List (List α)} {l : List α} {a : α}
    (hl : l ∈ ls) (ha : a ∈ l) : a ∈ joinSep sep ls := by
  induction ls with
  | nil => cases hl
  | cons x xs ih =>
    cases xs with
    | nil =>
      rw [List.mem_singleton] at hl
      subst hl
      simpa using ha
    | cons y ys =>
      rw [joinSep_cons _ _ _ (by simp)]
      rcases List.mem_cons.mp hl with h1 | h2
      · subst h1
        simp [ha]
      · simp [ih h2]

theorem mem_of_mem_joinSep {α : Type} {sep : List α} {ls : List (List α)} {a : α}
    (h : a ∈ joinSep sep ls) : a ∈ sep ∨ ∃ l ∈ ls, a ∈ l := by
  induction ls with
  | nil => cases h
  | cons x xs ih =>
    cases xs with
    | nil =>
      simp only [joinSep] at h
      right
      exact ⟨x, by simp, h⟩
    | cons y ys =>
      rw [joinSep_cons _ _ _ (by simp)] at h
      rcases List.mem_append.mp h with h1 | h2
      · rcases List.mem_append.mp h1 with h3 | h4
        · right
          exact ⟨x, by simp, h3⟩
        · left
          exact h4
      · rcases ih h2 with h3 | ⟨l, hl, ha⟩
        · left
          exact h3
        · right
          exact ⟨l, by simp [hl], ha⟩

theorem mem_of_mem_splitOnChar (sep : Char) {t p : List Char} {c : Char}
    (hp : p ∈ splitOnChar sep t) (hc : c ∈ p) : c ∈ t := by
  have h := mem_joinSep_of_mem [sep] hp hc
  rwa [joinSep_splitOnChar] at h

theorem mem_of_mem_splitSep2 {t p : List Char} {c : Char}
    (hp : p ∈ splitSep2 t) (hc : c ∈ p) : c ∈ t := by
  have h := mem_joinSep_of_mem ['\n', '\n'] hp hc
  rwa [joinSep_splitSep2] at h

theorem mem_splitNL_of_mem_para {t p l : List Char}
    (hp : p ∈ splitSep2 t) (hl : l ∈ splitNL p) : l ∈ splitNL t := by
  rw [splitNL_splitSep2 t]
  exact mem_joinSep_of_mem [[]] (List.mem_map_of_mem splitNL hp) hl

/-! ### Lemmas about `mapME` -/

theorem mapME_congr_ok {α β : Type} (f : α → Except Unit β) (g : α → β) (l : List α)
    (h : ∀ a ∈ l, f a = .ok (g a)) : mapME f l = .ok (l.map g) := by
  induction l with
  | nil => rfl
  | cons a as ih =>
    simp only [mapME, h a (by simp)]
    rw [ih (fun x hx => h x (by simp [hx]))]
    rfl

theorem mapME_total {α β : Type} (f : α → Except Unit β) (l : List α)
    (h : ∀ a ∈ l, ∃ b, f a = .ok b) : ∃ bs, mapME f l = .ok bs := by
  induction l with
  | nil => exact ⟨[], rfl⟩
  | cons a as ih =>
    obtain ⟨b, hb⟩ := h a (by simp)
    obtain ⟨bs, hbs⟩ := ih (fun x hx => h x (by simp [hx]))
    exact ⟨b :: bs, by simp only [mapME, hb, hbs]⟩

theorem mapME_ok_mem {α β : Type} {f : α → Except Unit β} {l : List α} {bs : List β}
    (h : mapME f l = .ok bs) : ∀ b ∈ bs, ∃ a ∈ l, f a = .ok b := by
  induction l generalizing bs with
  | nil =>
    simp only [mapME] at h
    injection h with h
    subst h
    intro b hb
    cases hb
  | cons a as ih =>
    simp only [mapME] at h
    cases hfa : f a with
    | error e => rw [hfa] at h; cases h
    | ok b0 =>
      rw [hfa] at h
      cases hrest : mapME f as with
      | error e => rw [hrest] at h; cases h
      | ok bs0 =>
        rw [hrest] at h
        injection h with h
        subst h
        intro b hb
        rcases List.mem_cons.mp hb with h1 | h2
        · exact ⟨a, by simp, by rw [hfa, h1]⟩
        · obtain ⟨a1, ha1, hfa1⟩ := ih hrest b h2
          exact ⟨a1, by simp [ha1], hfa1⟩

theorem flatten_map_singleton {α : Type} (l : List α) :
    (l.map (fun x => [x])).flatten = l := by
  induction l with
  | nil => rfl
  | cons a as ih => simp [ih]

/-! ### Pass-through: lines within the width that are not whitespace-only are
kept verbatim by every path -/

theorem lstripL_eq_nil_iff (l : List Char) : lstripL l = [] ↔ l.all isStrSpace = true := by
  simp [lstripL, List.dropWhile_eq_nil_iff, List.all_eq_true]

theorem rstripL_eq_nil_iff (l : List Char) : rstripL l = [] ↔ l.all isStrSpace = true := by
  simp only [rstripL, List.reverse_eq_nil_iff, List.dropWhile_eq_nil_iff, List.all_eq_true,
    List.mem_reverse]

theorem stripL_eq_nil_iff (l : List Char) : stripL l = [] ↔ l.all isStrSpace = true := by
  rw [stripL, rstripL_eq_nil_iff]
  constructor
  · intro h
    rw [List.all_eq_true]
    intro c hc
    rw [show l = l.takeWhile isStrSpace ++ l.dropWhile isStrSpace from
      (List.takeWhile_append_dropWhile ..).symm] at hc
    rcases List.mem_append.mp hc with h1 | h2
    · exact List.mem_takeWhile_imp h1
    · exact (List.all_eq_true.mp h) c h2
  · intro h
    rw [List.all_eq_true] at h ⊢
    intro c hc
    exact h c ((List.dropWhile_sublist isStrSpace).mem hc)

theorem codeLine_short (w : Int) (line : List Char) (h : (line.length : Int) ≤ w) :
    codeLine w line = .ok [line] := by
  simp [codeLine, if_pos h]

theorem proseLine_id (w : Int) (line : List Char) (hlen : (line.length : Int) ≤ w)
    (hws : line.all isStrSpace = true → line = []) :
    proseLine w line = .ok [line] := by
  by_cases hb : (stripL line).length = 0
  · have hnil : line = [] := hws ((stripL_eq_nil_iff line).mp (List.length_eq_zero.mp hb))
    subst hnil
    rfl
  · simp only [proseLine]
    rw [if_neg hb, if_pos hlen]

theorem wrapParagraph_id (w : Int) (p : List Char)
    (h : ∀ l ∈ splitNL p, (l.length : Int) ≤ w ∧ (l.all isStrSpace = true → l = [])) :
    wrapParagraph w p = .ok p := by
  by_cases hc : paraIsCode p = true
  · simp only [wrapParagraph, hc, if_true]
    rw [mapME_congr_ok (codeLine w) (fun l => [l]) _
      (fun l hl => codeLine_short w l (h l hl).1)]
    simp [flatten_map_singleton, joinSep_splitNL]
  · simp only [wrapParagraph, hc, if_false]
    rw [mapME_congr_ok (proseLine w) (fun l => [l]) _
      (fun l hl => proseLine_id w l (h l hl).1 (h l hl).2)]
    simp [flatten_map_singleton, joinSep_splitNL]

theorem tableReflow_id (w : Int) (t : List Char)
    (h : ∀ l ∈ splitNL t, (l.length : Int) ≤ w) :
    tableReflow w t = .ok t := by
  simp only [tableReflow]
  rw [mapME_congr_ok (tableLineOut w) (fun l => [l]) _
    (fun l hl => by simp [tableLineOut, if_pos (h l hl)])]
  simp [flatten_map_singleton, joinSep_splitNL]

theorem paragraphReflow_id (w : Int) (t : List Char)
    (h : ∀ l ∈ splitNL t, (l.length : Int) ≤ w ∧ (l.all isStrSpace = true → l = [])) :
    paragraphReflow w t = .ok t := by
  simp only [paragraphReflow]
  rw [mapME_congr_ok (wrapParagraph w) id _
    (fun p hp => wrapParagraph_id w p (fun l hl => h l (mem_splitNL_of_mem_para hp hl)))]
  simp [joinSep_splitSep2]

/-! ### Characters of the output come from the input, spaces, or newlines -/

theorem takeChunks_append (w : Nat) (k : Nat) (cs : List (List Char)) :
    (takeChunks w k cs).1 ++ (takeChunks w k cs).2 = cs := by
  induction cs generalizing k with
  | nil => rfl
  | cons c cs' ih =>
    simp only [takeChunks]
    by_cases h : k + c.length ≤ w
    · simp only [if_pos h, List.cons_append]
      rw [ih]
    · simp [if_neg h]

theorem mem_of_mem_handleLong_fst {w : Nat} {consumed rest : List (List Char)} {ch : List Char}
    {c : Char} (hch : ch ∈ (handleLong w consumed rest).1) (hc : c ∈ ch) :
    (∃ d ∈ consumed, c ∈ d) ∨ ∃ d ∈ rest, c ∈ d := by
  cases rest with
  | nil => exact Or.inl ⟨ch, by simpa [handleLong] using hch, hc⟩
  | cons h t =>
    simp only [handleLong] at hch
    by_cases hw : w < h.length
    · rw [if_pos hw] at hch
      rcases List.mem_append.mp hch with h1 | h2
      · exact Or.inl ⟨ch, h1, hc⟩
      · rw [List.mem_singleton] at h2
        subst h2
        exact Or.inr ⟨h, by simp, (List.take_sublist _ _).mem hc⟩
    · rw [if_neg hw] at hch
      exact Or.inl ⟨ch, hch, hc⟩

theorem mem_of_mem_handleLong_snd {w : Nat} {consumed rest : List (List Char)} {ch : List Char}
    {c : Char} (hch : ch ∈ (handleLong w consumed rest).2) (hc : c ∈ ch) :
    ∃ d ∈ rest, c ∈ d := by
  cases rest with
  | nil => simp [handleLong] at hch
  | cons h t =>
    simp only [handleLong] at hch
    by_cases hw : w < h.length
    · rw [if_pos hw] at hch
      rcases List.mem_cons.mp hch with h1 | h2
      · subst h1
        exact ⟨h, by simp, (List.drop_sublist _ _).mem hc⟩
      · exact ⟨ch, by simp [h2], hc⟩
    · rw [if_neg hw] at hch
      exact ⟨ch, hch, hc⟩

theorem mem_of_mem_dropTrailingWS {cur : List (List Char)} {ch : List Char}
    (h : ch ∈ dropTrailingWS cur) : ch ∈ cur := by
  unfold dropTrailingWS at h
  split at h
  · split at h
    · exact (List.dropLast_sublist cur).mem h
    · exact h
  · exact h

theorem mem_of_mem_wrapChunksGo {w : Nat} (fuel : Nat) (emitted : Bool)
    (chunks : List (List Char)) {l : List Char} {c : Char}
    (hl : l ∈ wrapChunksGo w fuel emitted chunks) (hc : c ∈ l) :
    ∃ ch ∈ chunks, c ∈ ch := by
  induction fuel generalizing emitted chunks l with
  | zero =>
    rw [show wrapChunksGo w 0 emitted chunks = [] from by cases chunks <;> rfl] at hl
    cases hl
  | succ fuel ih =>
    cases chunks with
    | nil =>
      rw [show wrapChunksGo w (fuel + 1) emitted [] = [] from rfl] at hl
      cases hl
    | cons c0 cs0 =>
      simp only [wrapChunksGo] at hl
      have hsub1 : ∀ d : List Char,
          d ∈ (if emitted && c0.all isStrSpace then cs0 else c0 :: cs0) → d ∈ c0 :: cs0 := by
        intro d hd
        by_cases hcond : (emitted && c0.all isStrSpace) = true
        · rw [if_pos hcond] at hd
          exact List.mem_cons_of_mem _ hd
        · rwa [if_neg hcond] at hd
      set chunks1 := if emitted && c0.all isStrSpace then cs0 else c0 :: cs0 with hch1
      have htk : (takeChunks w 0 chunks1).1 ++ (takeChunks w 0 chunks1).2 = chunks1 :=
        takeChunks_append w 0 chunks1
      have hsubfst : ∀ d : List Char, d ∈ (takeChunks w 0 chunks1).1 → d ∈ chunks1 := by
        intro d hd
        rw [← htk]
        exact List.mem_append.mpr (Or.inl hd)
      have hsubsnd : ∀ d : List Char, d ∈ (takeChunks w 0 chunks1).2 → d ∈ chunks1 := by
        intro d hd
        rw [← htk]
        exact List.mem_append.mpr (Or.inr hd)
      by_cases hcur :
          (dropTrailingWS (handleLong w (takeChunks w 0 chunks1).1 (takeChunks w 0 chunks1).2).1).isEmpty = true
      · rw [if_pos hcur] at hl
        obtain ⟨ch, hchm, hcch⟩ := ih _ _ hl hc
        obtain ⟨d, hd, hcd⟩ := mem_of_mem_handleLong_snd hchm hcch
        exact ⟨d, hsub1 d (hsubsnd d hd), hcd⟩
      · rw [if_neg hcur] at hl
        rcases List.mem_cons.mp hl with h1 | h2
        · subst h1
          obtain ⟨ch, hchm, hcch⟩ := List.mem_flatten.mp hc
          have hchm2 := mem_of_mem_dropTrailingWS hchm
          rcases mem_of_mem_handleLong_fst hchm2 hcch with ⟨d, hd, hcd⟩ | ⟨d, hd, hcd⟩
          · exact ⟨d, hsub1 d (hsubfst d hd), hcd⟩
          · exact ⟨d, hsub1 d (hsubsnd d hd), hcd⟩
        · obtain ⟨ch, hchm, hcch⟩ := ih _ _ h2 hc
          obtain ⟨d, hd, hcd⟩ := mem_of_mem_handleLong_snd hchm hcch
          exact ⟨d, hsub1 d (hsubsnd d hd), hcd⟩

theorem mem_of_mem_runsAux {cls : Bool} {acc l : List Char} {p : List Char} {c : Char}
    (hp : p ∈ runsAux cls acc l) (hc : c ∈ p) : c ∈ acc ∨ c ∈ l := by
  induction l generalizing cls acc p with
  | nil =>
    simp only [runsAux, List.mem_singleton] at hp
    subst hp
    exact Or.inl (by simpa using hc)
  | cons x xs ih =>
    simp only [runsAux] at hp
    by_cases hcl : isStrSpace x = cls
    · rw [if_pos hcl] at hp
      rcases ih hp hc with h1 | h2
      · rcases List.mem_cons.mp h1 with h3 | h4
        · exact Or.inr (by simp [h3])
        · exact Or.inl h4
      · exact Or.inr (by simp [h2])
    · rw [if_neg hcl] at hp
      rcases List.mem_cons.mp hp with h1 | h2
      · subst h1
        exact Or.inl (by simpa using hc)
      · rcases ih h2 hc with h3 | h4
        · rcases List.mem_singleton.mp h3 with h5
          exact Or.inr (by simp [h5])
        · exact Or.inr (by simp [h4])

theorem mem_of_mem_splitRuns {s : List Char} {p : List Char} {c : Char}
    (hp : p ∈ splitRuns s) (hc : c ∈ p) : c ∈ s := by
  cases s with
  | nil => simp [splitRuns] at hp
  | cons x xs =>
    rcases mem_of_mem_runsAux (by simpa [splitRuns] using hp) hc with h1 | h2
    · rcases List.mem_singleton.mp h1 with h3
      simp [h3]
    · simp [h2]

theorem mem_replaceWS {s : List Char} {c : Char} (h : c ∈ s.map replaceWS) :
    c ∈ s ∨ c = ' ' := by
  rcases List.mem_map.mp h with ⟨d, hd, hdc⟩
  by_cases hw : isPySpace d = true
  · right
    rw [← hdc]
    simp [replaceWS, hw]
  · left
    have : replaceWS d = d := by simp [replaceWS, hw]
    rw [← hdc, this]
    exact hd

theorem mem_of_fill_ok {s : List Char} {w : Int} {f : List Char} {c : Char}
    (h : textwrap_fill s w = .ok f) (hc : c ∈ f) : c ∈ s ∨ c = ' ' ∨ c = '\n' := by
  simp only [textwrap_fill] at h
  by_cases hw : w ≤ 0
  · rw [if_pos hw] at h
    cases h
  · rw [if_neg hw] at h
    injection h with h
    subst h
    rcases mem_of_mem_joinSep hc with hsep | ⟨l, hlmem, hcl⟩
    · right
      right
      simpa using hsep
    · obtain ⟨ch, hch, hcch⟩ := mem_of_mem_wrapChunksGo _ _ _ hlmem hcl
      rcases mem_replaceWS (mem_of_mem_splitRuns hch hcch) with h1 | h2
      · exact Or.inl h1
      · exact Or.inr (Or.inl h2)

theorem mem_of_codeLine_ok {w : Int} {line : List Char} {out : List (List Char)} {l : List Char}
    {c : Char} (h : codeLine w line = .ok out) (hl : l ∈ out) (hc : c ∈ l) :
    c ∈ line ∨ c = ' ' ∨ c = '\n' := by
  simp only [codeLine] at h
  by_cases h1 : (line.length : Int) ≤ w
  · rw [if_pos h1] at h
    injection h with h
    subst h
    rw [List.mem_singleton] at hl
    subst hl
    exact Or.inl hc
  · rw [if_neg h1] at h
    by_cases h2 : (20 : Int) < w - (pyIndent line : Int)
    · rw [if_pos h2] at h
      cases hf : textwrap_fill (line.drop (pyIndent line)) (w - (pyIndent line : Int)) with
      | error e =>
        rw [hf] at h
        cases h
      | ok f =>
        rw [hf] at h
        injection h with h
        subst h
        rcases List.mem_map.mp hl with ⟨l2, hl2, hl2eq⟩
        subst hl2eq
        rcases List.mem_append.mp hc with hci | hcl2
        · exact Or.inl ((List.take_sublist _ _).mem hci)
        · rcases mem_of_fill_ok hf (mem_of_mem_splitOnChar '\n' hl2 hcl2) with ha | hb
          · exact Or.inl ((List.drop_sublist _ _).mem ha)
          · exact Or.inr hb
    · rw [if_neg h2] at h
      injection h with h
      subst h
      rcases List.mem_append.mp hl with ha | hb
      · rw [List.mem_singleton] at ha
        subst ha
        exact Or.inl ((List.take_sublist _ _).mem hc)
      · by_cases h3 : w < (line.length : Int)
        · rw [if_pos h3, List.mem_singleton] at hb
          subst hb
          exact Or.inl ((List.drop_sublist _ _).mem hc)
        · rw [if_neg h3] at hb
          cases hb

theorem mem_of_proseLine_ok {w : Int} {line : List Char} {out : List (List Char)} {l : List Char}
    {c : Char} (h : proseLine w line = .ok out) (hl : l ∈ out) (hc : c ∈ l) :
    c ∈ line ∨ c = ' ' ∨ c = '\n' := by
  simp only [proseLine] at h
  by_cases h1 : (stripL line).length = 0
  · rw [if_pos h1] at h
    injection h with h
    subst h
    rw [List.mem_singleton] at hl
    subst hl
    cases hc
  · rw [if_neg h1] at h
    by_cases h2 : (line.length : Int) ≤ w
    · rw [if_pos h2] at h
      injection h with h
      subst h
      rw [List.mem_singleton] at hl
      subst hl
      exact Or.inl hc
    · rw [if_neg h2] at h
      cases hf : textwrap_fill line w with
      | error e =>
        rw [hf] at h
        cases h
      | ok f =>
        rw [hf] at h
        injection h with h
        subst h
        rw [List.mem_singleton] at hl
        subst hl
        exact mem_of_fill_ok hf hc

theorem mem_of_wrapParagraph_ok {w : Int} {p out : List Char} {c : Char}
    (h : wrapParagraph w p = .ok out) (hc : c ∈ out) :
    c ∈ p ∨ c = ' ' ∨ c = '\n' := by
  simp only [wrapParagraph] at h
  by_cases hcode : paraIsCode p = true
  · rw [if_pos hcode] at h
    cases hm : mapME (codeLine w) (splitNL p) with
    | error e =>
      rw [hm] at h
      cases h
    | ok ls =>
      rw [hm] at h
      injection h with h
      subst h
      rcases mem_of_mem_joinSep hc with hsep | ⟨l, hlm, hcl⟩
      · right
        right
        simpa using hsep
      · obtain ⟨group, hg, hlg⟩ := List.mem_flatten.mp hlm
        obtain ⟨line, hline, hok⟩ := mapME_ok_mem hm group hg
        rcases mem_of_codeLine_ok hok hlg hcl with ha | hb
        · exact Or.inl (mem_of_mem_splitOnChar '\n' hline ha)
        · exact Or.inr hb
  · rw [if_neg hcode] at h
    cases hm : mapME (proseLine w) (splitNL p) with
    | error e =>
      rw [hm] at h
      cases h
    | ok ls =>
      rw [hm] at h
      injection h with h
      subst h
      rcases mem_of_mem_joinSep hc with hsep | ⟨l, hlm, hcl⟩
      · right
        right
        simpa using hsep
      · obtain ⟨group, hg, hlg⟩ := List.mem_flatten.mp hlm
        obtain ⟨line, hline, hok⟩ := mapME_ok_mem hm group hg
        rcases mem_of_proseLine_ok hok hlg hcl with ha | hb
        · exact Or.inl (mem_of_mem_splitOnChar '\n' hline ha)
        · exact Or.inr hb

theorem mem_of_paragraphReflow_ok {w : Int} {t s : List Char} {c : Char}
    (h : paragraphReflow w t = .ok s) (hc : c ∈ s) :
    c ∈ t ∨ c = ' ' ∨ c = '\n' := by
  simp only [paragraphReflow] at h
  cases hm : mapME (wrapParagraph w) (splitSep2 t) with
  | error e =>
    rw [hm] at h
    cases h
  | ok ps =>
    rw [hm] at h
    injection h with h
    subst h
    rcases mem_of_mem_joinSep hc with hsep | ⟨q, hqm, hcq⟩
    · right
      right
      simpa using hsep
    · obtain ⟨p, hp, hok⟩ := mapME_ok_mem hm q hqm
      rcases mem_of_wrapParagraph_ok hok hcq with ha | hb
      · exact Or.inl (mem_of_mem_splitSep2 hp ha)
      · exact Or.inr hb

theorem hasBox_false_paragraphReflow {w : Int} {t s : List Char}
    (hb : hasBox t = false) (h : paragraphReflow w t = .ok s) : hasBox s = false := by
  rw [hasBox] at hb ⊢
  rw [List.any_eq_false] at hb ⊢
  intro c hc
  rcases mem_of_paragraphReflow_ok h hc with h1 | h2 | h3
  · exact hb c h1
  · subst h2
    decide
  · subst h3
    decide

/-! ### The greedy cell reassembly: no characters lost, line shapes -/

theorem piece_join (p : List Char) (ps : List (List Char)) :
    (p ++ if ps.isEmpty then [] else ['│']) ++ joinSep ['│'] ps = joinSep ['│'] (p :: ps) := by
  cases ps with
  | nil => simp [joinSep]
  | cons q qs =>
    rw [joinSep_cons ['│'] p (q :: qs) (by simp)]
    rfl

theorem cellLoop_flatten (w : Int) (current : List Char) (parts : List (List Char)) :
    (cellLoop w current parts).flatten = current ++ joinSep ['│'] parts := by
  induction parts generalizing current with
  | nil =>
    simp only [cellLoop, joinSep]
    by_cases h : current.isEmpty = true
    · rw [if_pos h]
      simp [List.isEmpty_iff.mp h]
    · rw [if_neg h]
      simp
  | cons p ps ih =>
    simp only [cellLoop]
    by_cases hfit : (((current ++ (p ++ if ps.isEmpty then [] else ['│'])).length : Int)) ≤ w
    · rw [if_pos hfit, ih]
      rw [List.append_assoc, piece_join]
    · rw [if_neg hfit, List.flatten_append, ih, piece_join]
      by_cases hcur : current.isEmpty = true
      · rw [if_pos hcur]
        simp [List.isEmpty_iff.mp hcur]
      · rw [if_neg hcur]
        simp

theorem cellLoop_shape (w : Int) (current : List Char) (parts : List (List Char)) :
    ∀ l ∈ cellLoop w current parts,
      l = current ∨ (l.length : Int) ≤ w ∨ ∃ p ∈ parts, l = p ++ ['│'] ∨ l = p := by
  induction parts generalizing current with
  | nil =>
    intro l hl
    simp only [cellLoop] at hl
    by_cases h : current.isEmpty = true
    · rw [if_pos h] at hl
      cases hl
    · rw [if_neg h] at hl
      rw [List.mem_singleton] at hl
      exact Or.inl hl
  | cons p ps ih =>
    intro l hl
    simp only [cellLoop] at hl
    by_cases hfit : (((current ++ (p ++ if ps.isEmpty then [] else ['│'])).length : Int)) ≤ w
    · rw [if_pos hfit] at hl
      rcases ih _ l hl with h1 | h2 | ⟨q, hq, h3⟩
      · subst h1
        exact Or.inr (Or.inl hfit)
      · exact Or.inr (Or.inl h2)
      · exact Or.inr (Or.inr ⟨q, by simp [hq], h3⟩)
    · rw [if_neg hfit] at hl
      rcases List.mem_append.mp hl with ha | hb
      · by_cases hcur : current.isEmpty = true
        · rw [if_pos hcur] at ha
          cases ha
        · rw [if_neg hcur] at ha
          rw [List.mem_singleton] at ha
          exact Or.inl ha
      · rcases ih _ l hb with h1 | h2 | ⟨q, hq, h3⟩
        · subst h1
          refine Or.inr (Or.inr ⟨p, by simp, ?_⟩)
          cases ps with
          | nil => simp
          | cons q qs => simp
        · exact Or.inr (Or.inl h2)
        · exact Or.inr (Or.inr ⟨q, by simp [hq], h3⟩)

theorem cellLoop_no_nil (w : Int) (current : List Char) (parts : List (List Char)) :
    ∀ l ∈ cellLoop w current parts, l ≠ [] := by
  induction parts generalizing current with
  | nil =>
    intro l hl
    simp only [cellLoop] at hl
    by_cases h : current.isEmpty = true
    · rw [if_pos h] at hl
      cases hl
    · rw [if_neg h] at hl
      rw [List.mem_singleton] at hl
      subst hl
      simpa [List.isEmpty_iff] using h
  | cons p ps ih =>
    intro l hl
    simp only [cellLoop] at hl
    by_cases hfit : (((current ++ (p ++ if ps.isEmpty then [] else ['│'])).length : Int)) ≤ w
    · rw [if_pos hfit] at hl
      exact ih _ l hl
    · rw [if_neg hfit] at hl
      rcases List.mem_append.mp hl with ha | hb
      · by_cases hcur : current.isEmpty = true
        · rw [if_pos hcur] at ha
          cases ha
        · rw [if_neg hcur] at ha
          rw [List.mem_singleton] at ha
          subst ha
          simpa [List.isEmpty_iff] using hcur
      · exact ih _ l hb

/-! ### Totality for positive widths -/

theorem fill_ok_of_pos (s : List Char) (w : Int) (hw : 1 ≤ w) :
    ∃ f, textwrap_fill s w = .ok f := by
  unfold textwrap_fill
  rw [if_neg (show ¬w ≤ 0 by omega)]
  exact ⟨_, rfl⟩

theorem codeLine_ok (w : Int) (line : List Char) :
    ∃ out, codeLine w line = .ok out := by
  simp only [codeLine]
  by_cases h1 : (line.length : Int) ≤ w
  · rw [if_pos h1]
    exact ⟨_, rfl⟩
  · rw [if_neg h1]
    by_cases h2 : (20 : Int) < w - (pyIndent line : Int)
    · rw [if_pos h2]
      obtain ⟨f, hf⟩ := fill_ok_of_pos (line.drop (pyIndent line)) (w - (pyIndent line : Int))
        (by omega)
      rw [hf]
      exact ⟨_, rfl⟩
    · rw [if_neg h2]
      exact ⟨_, rfl⟩

theorem proseLine_ok (w : Int) (hw : 1 ≤ w) (line : List Char) :
    ∃ out, proseLine w line = .ok out := by
  simp only [proseLine]
  by_cases h1 : (stripL line).length = 0
  · rw [if_pos h1]
    exact ⟨_, rfl⟩
  · rw [if_neg h1]
    by_cases h2 : (line.length : Int) ≤ w
    · rw [if_pos h2]
      exact ⟨_, rfl⟩
    · rw [if_neg h2]
      obtain ⟨f, hf⟩ := fill_ok_of_pos line w hw
      rw [hf]
      exact ⟨_, rfl⟩

theorem tableLineOut_ok (w : Int) (hw : 1 ≤ w) (line : List Char) :
    ∃ out, tableLineOut w line = .ok out := by
  simp only [tableLineOut]
  by_cases h1 : (line.length : Int) ≤ w
  · rw [if_pos h1]
    exact ⟨_, rfl⟩
  · rw [if_neg h1]
    by_cases h2 : line.contains '│' = true
    · rw [if_pos h2]
      exact ⟨_, rfl⟩
    · rw [if_neg h2]
      obtain ⟨f, hf⟩ := fill_ok_of_pos line w hw
      rw [hf]
      exact ⟨_, rfl⟩

theorem wrapParagraph_ok (w : Int) (hw : 1 ≤ w) (p : List Char) :
    ∃ out, wrapParagraph w p = .ok out := by
  simp only [wrapParagraph]
  by_cases hc : paraIsCode p = true
  · rw [if_pos hc]
    obtain ⟨ls, hls⟩ := mapME_total (codeLine w) (splitNL p) (fun l _ => codeLine_ok w l)
    rw [hls]
    exact ⟨_, rfl⟩
  · rw [if_neg hc]
    obtain ⟨ls, hls⟩ := mapME_total (proseLine w) (splitNL p) (fun l _ => proseLine_ok w hw l)
    rw [hls]
    exact ⟨_, rfl⟩

theorem paragraphReflow_ok (w : Int) (hw : 1 ≤ w) (t : List Char) :
    ∃ s, paragraphReflow w t = .ok s := by
  simp only [paragraphReflow]
  obtain ⟨ps, hps⟩ := mapME_total (wrapParagraph w) (splitSep2 t) (fun p _ => wrapParagraph_ok w hw p)
  rw [hps]
  exact ⟨_, rfl⟩

theorem tableReflow_ok (w : Int) (hw : 1 ≤ w) (t : List Char) :
    ∃ s, tableReflow w t = .ok s := by
  simp only [tableReflow]
  obtain ⟨ls, hls⟩ := mapME_total (tableLineOut w) (splitNL t) (fun l _ => tableLineOut_ok w hw l)
  rw [hls]
  exact ⟨_, rfl⟩

/-! ### The two branches of an over-length code line -/

theorem codeLine_fill_eq (w : Int) (line : List Char) (h1 : w < (line.length : Int))
    (h2 : (20 : Int) < w - (pyIndent line : Int)) :
    ∃ f, textwrap_fill (line.drop (pyIndent line)) (w - (pyIndent line : Int)) = .ok f ∧
      codeLine w line = .ok ((splitNL f).map (fun l2 => line.take (pyIndent line) ++ l2)) := by
  obtain ⟨f, hf⟩ := fill_ok_of_pos _ _ (show (1 : Int) ≤ w - (pyIndent line : Int) by omega)
  refine ⟨f, hf, ?_⟩
  simp only [codeLine, if_neg (not_le.mpr h1), if_pos h2, hf]

theorem codeLine_hardcut_eq (w : Int) (line : List Char) (h1 : w < (line.length : Int))
    (h2 : w - (pyIndent line : Int) ≤ 20) :
    codeLine w line = .ok [pySliceTo line w, pySliceFrom line w] := by
  simp only [codeLine, if_neg (not_le.mpr h1), if_neg (not_lt.mpr h2), if_pos h1]
  rfl

theorem isPrefixOf_append_self (a b : List Char) : a.isPrefixOf (a ++ b) = true := by
  induction a with
  | nil => simp [List.isPrefixOf]
  | cons x xs ih => simp [List.isPrefixOf, ih]

/-! ### The indentation checks of line 81-82 can never fire -/

theorem head_lstripL (p : List Char) (c : Char) (rest : List Char)
    (h : lstripL p = c :: rest) : isStrSpace c = false := by
  induction p with
  | nil => cases h
  | cons x xs ih =>
    simp only [lstripL, List.dropWhile_cons] at h
    by_cases hx : isStrSpace x = true
    · rw [if_pos hx] at h
      exact ih h
    · rw [if_neg hx] at h
      injection h with h1 h2
      subst h1
      cases hb : isStrSpace x with
      | false => rfl
      | true => exact absurd hb hx

theorem rstripL_append (l : List Char) : ∃ tail, l = rstripL l ++ tail := by
  have hsuf : (l.reverse.dropWhile isStrSpace) <:+ l.reverse := List.dropWhile_suffix ..
  obtain ⟨pre, hpre⟩ := hsuf
  refine ⟨pre.reverse, ?_⟩
  rw [rstripL]
  conv_lhs => rw [← l.reverse_reverse, ← hpre]
  rw [List.reverse_append]

theorem stripL_cons_not_ws (p : List Char) (c : Char) (rest : List Char)
    (h : stripL p = c :: rest) : isStrSpace c = false := by
  obtain ⟨tail, htail⟩ := rstripL_append (lstripL p)
  rw [stripL] at h
  rw [h] at htail
  exact head_lstripL p c (rest ++ tail) (by simpa using htail)

theorem indent_checks_dead (p : List Char) :
    "    ".toList.isPrefixOf (stripL p) = false ∧ "\t".toList.isPrefixOf (stripL p) = false := by
  cases hs : stripL p with
  | nil => exact ⟨by simp [List.isPrefixOf], by simp [List.isPrefixOf]⟩
  | cons c rest =>
    have hc := stripL_cons_not_ws p c rest hs
    have h1 : (' ' == c) = false := by
      cases hb : (' ' == c) with
      | false => rfl
      | true =>
        have hce : ' ' = c := eq_of_beq hb
        rw [← hce] at hc
        exact absurd hc (by decide)
    have h2 : ('\t' == c) = false := by
      cases hb : ('\t' == c) with
      | false => rfl
      | true =>
        have hce : '\t' = c := eq_of_beq hb
        rw [← hce] at hc
        exact absurd hc (by decide)
    constructor
    · rw [show "    ".toList = ' ' :: ' ' :: ' ' :: ' ' :: [] from rfl]
      simp [List.isPrefixOf, h1]
    · rw [show "\t".toList = '\t' :: [] from rfl]
      simp [List.isPrefixOf, h2]

/-! ### Claims -/

/-- C1 (amended): for every input in which no line exceeds the width and every
whitespace-only line is empty, `wrap_text_for_terminal` returns the input
unchanged, byte for byte, including blank-line paragraph separators — on both
the table path and the paragraph path. -/
theorem c1_unchanged_when_fits (cols : Int) (t : List Char) (w : Int)
    (h : ∀ l ∈ splitNL t, (l.length : Int) ≤ w ∧ (l.all isStrSpace = true → l = [])) :
    wrap_text_for_terminal cols t (some w) = .ok t := by
  simp only [wrap_text_for_terminal]
  by_cases hb : hasBox t = true
  · rw [if_pos hb]
    exact tableReflow_id w t (fun l hl => (h l hl).1)
  · rw [if_neg hb]
    exact paragraphReflow_id w t h

/-- C1 witness: the spec scenario — two short paragraphs separated by a blank
line pass through byte for byte. -/
theorem c1_unchanged_when_fits_witness :
    wrap_text_for_terminal 80 ("hello there\n\nworld again".toList) (some 50) =
      .ok ("hello there\n\nworld again".toList) :=
  c1_unchanged_when_fits 80 ("hello there\n\nworld again".toList) 50 (by decide)

/-- C1 counterexample: "a\n \nb" has no line exceeding width 50, yet the
whitespace-only middle line is replaced by an empty line, so the output
"a\n\nb" differs from the input. -/
theorem c1_counterexample :
    (∀ l ∈ splitNL ("a\n \nb".toList), (l.length : Int) ≤ 50) ∧
      wrap_text_for_terminal 80 ("a\n \nb".toList) (some 50) = .ok ("a\n\nb".toList) ∧
      "a\n\nb".toList ≠ "a\n \nb".toList :=
  ⟨by decide, by rfl, by decide⟩

/-- C2 (amended): every output line of the greedy cell reassembly of an
over-length table line containing '│' either does not exceed the width or is
a single cell fragment, emitted unsplit with its re-appended separator (or
without one if it is the final fragment). -/
theorem c2_cell_within_or_single (w : Int) (line : List Char)
    (hbar : line.contains '│' = true) (hlen : w < (line.length : Int)) :
    ∀ l ∈ tableCellSplit w line,
      (l.length : Int) ≤ w ∨ ∃ p ∈ splitOnChar '│' line, l = p ++ ['│'] ∨ l = p := by
  intro l hl
  have hl2 : l ∈ cellLoop w [] (splitOnChar '│' line) := hl
  rcases cellLoop_shape w [] (splitOnChar '│' line) l hl2 with h1 | h2 | h3
  · exact absurd h1 (cellLoop_no_nil w [] _ l hl2)
  · exact Or.inl h2
  · exact Or.inr h3

/-- C2 witness: in the spec scenario the oversized middle output line is a
single fragment with its separator. -/
theorem c2_cell_within_or_single_witness :
    ((" bbbbbbbbbb │".toList.length : Int) ≤ 10 ∨
      ∃ p ∈ splitOnChar '│' ("a │ bbbbbbbbbb │ c".toList),
        " bbbbbbbbbb │".toList = p ++ ['│'] ∨ " bbbbbbbbbb │".toList = p) :=
  c2_cell_within_or_single 10 ("a │ bbbbbbbbbb │ c".toList) (by decide) (by decide)
    (" bbbbbbbbbb │".toList) (by decide)

/-- C2 counterexample: the spec scenario "a │ bbbbbbbbbb │ c" at width 10
produces the output line " bbbbbbbbbb │" of length 13 > 10: not every output
line respects the width. -/
theorem c2_counterexample :
    ((10 : Int) < (("a │ bbbbbbbbbb │ c".toList).length : Int)) ∧
      ("a │ bbbbbbbbbb │ c".toList).contains '│' = true ∧
      wrap_text_for_terminal 80 ("a │ bbbbbbbbbb │ c".toList) (some 10) =
        .ok ("a │\n bbbbbbbbbb │\n c".toList) ∧
      (" bbbbbbbbbb │".toList ∈ tableCellSplit 10 ("a │ bbbbbbbbbb │ c".toList)) ∧
      ¬((" bbbbbbbbbb │".toList.length : Int) ≤ 10) :=
  ⟨by decide, by decide, by rfl, by decide, by decide⟩

/-- C3: the indentation heuristic of lines 80-82 is dead code: `strip()`
removes the very whitespace that `startswith('    ')` / `startswith('\t')`
look for, so the two checks are false for every paragraph.  At the failing
input, a paragraph whose first line starts with two spaces is therefore
word-filled as prose — the continuation line "ffff gggg" loses the indent —
whereas the code path (which the claim describes) would have produced
"  ffff gggg". -/
theorem c3_indent_goes_to_prose :
    (∀ p : List Char,
        "    ".toList.isPrefixOf (stripL p) = false ∧
          "\t".toList.isPrefixOf (stripL p) = false) ∧
      paraIsCode ("  aaaa bbbb cccc dddd eeee ffff gggg".toList) = false ∧
      wrap_text_for_terminal 80 ("  aaaa bbbb cccc dddd eeee ffff gggg".toList) (some 30) =
        .ok ("  aaaa bbbb cccc dddd eeee\nffff gggg".toList) ∧
      codeLine 30 ("  aaaa bbbb cccc dddd eeee ffff gggg".toList) =
        .ok ["  aaaa bbbb cccc dddd eeee".toList, "  ffff gggg".toList] ∧
      "  ".toList.isPrefixOf ("ffff gggg".toList) = false :=
  ⟨indent_checks_dead, by decide, by rfl, by rfl, by decide⟩

/-- C4 (amended): for every explicitly given positive width, and always when
the width is absent (the effective width is then at least 50), the function
returns a string and never errors; a single token wider than the width is
hard-cut rather than erroring. -/
theorem c4_no_error_pos_width (cols : Int) (t : List Char) (w : Int) (hw : 1 ≤ w) :
    (∃ s, wrap_text_for_terminal cols t (some w) = .ok s) ∧
      ∃ s, wrap_text_for_terminal cols t none = .ok s := by
  constructor
  · simp only [wrap_text_for_terminal]
    by_cases hb : hasBox t = true
    · rw [if_pos hb]
      exact tableReflow_ok w hw t
    · rw [if_neg hb]
      exact paragraphReflow_ok w hw t
  · simp only [wrap_text_for_terminal]
    have h50 : (1 : Int) ≤ max 50 (cols - 15) := le_trans (by norm_num) (le_max_left _ _)
    by_cases hb : hasBox t = true
    · rw [if_pos hb]
      exact tableReflow_ok _ h50 t
    · rw [if_neg hb]
      exact paragraphReflow_ok _ h50 t

/-- C4 witness: a ten-character token at width 5 wraps without error. -/
theorem c4_no_error_pos_width_witness :
    (∃ s, wrap_text_for_terminal 80 ("xxxxxxxxxx".toList) (some 5) = .ok s) ∧
      ∃ s, wrap_text_for_terminal 80 ("xxxxxxxxxx".toList) none = .ok s :=
  c4_no_error_pos_width 80 ("xxxxxxxxxx".toList) 5 (by norm_num)

/-- C4 counterexample: with an explicit width of 0 or a negative width, a
prose line longer than the width reaches `textwrap.fill`, which raises
`ValueError` — the function does not return a string.  (The raise is not
universal at such widths: an over-length table line containing '│' takes the
cell-split path and still returns normally.) -/
theorem c4_counterexample :
    wrap_text_for_terminal 80 ("a".toList) (some 0) = .error () ∧
      wrap_text_for_terminal 80 ("a".toList) (some (-7)) = .error () ∧
      wrap_text_for_terminal 80 ("x│y".toList) (some 0) = .ok ("x│\ny".toList) :=
  ⟨by rfl, by rfl, by rfl⟩

/-- C5 (amended): for an over-length line of a code paragraph whose remaining
width after the indent exceeds 20 columns, the leading whitespace is kept as
a fixed prefix, the remaining content is word-filled into width minus the
prefix length, and the prefix is re-applied to every produced line. -/
theorem c5_code_prefix_fill (w : Int) (line : List Char)
    (h1 : w < (line.length : Int)) (h2 : (20 : Int) < w - (pyIndent line : Int)) :
    ∃ f, textwrap_fill (line.drop (pyIndent line)) (w - (pyIndent line : Int)) = .ok f ∧
      codeLine w line = .ok ((splitNL f).map (fun l2 => line.take (pyIndent line) ++ l2)) ∧
      ∀ out, codeLine w line = .ok out →
        ∀ l ∈ out, (line.take (pyIndent line)).isPrefixOf l = true := by
  obtain ⟨f, hf, heq⟩ := codeLine_fill_eq w line h1 h2
  refine ⟨f, hf, heq, ?_⟩
  intro out hout l hl
  rw [heq] at hout
  injection hout with hout
  subst hout
  rcases List.mem_map.mp hl with ⟨l2, _, hmap⟩
  subst hmap
  exact isPrefixOf_append_self _ _

/-- C5 witness: the spec scenario — a 200-character line with a 4-space
indent at width 30 is word-filled at 26 columns with the 4-space prefix
re-applied to every line. -/
theorem c5_code_prefix_fill_witness :
    ∃ f, textwrap_fill (c5line.drop (pyIndent c5line)) (30 - (pyIndent c5line : Int)) = .ok f ∧
      codeLine 30 c5line = .ok ((splitNL f).map (fun l2 => c5line.take (pyIndent c5line) ++ l2)) ∧
      ∀ out, codeLine 30 c5line = .ok out →
        ∀ l ∈ out, (c5line.take (pyIndent c5line)).isPrefixOf l = true :=
  c5_code_prefix_fill 30 c5line (by decide) (by decide)

/-- C5 counterexample: an over-length code line whose remaining width after
the indent is only 20 is hard-cut, not word-filled: the remainder line is
emitted verbatim without the 4-space prefix. -/
theorem c5_counterexample :
    ((24 : Int) < (("    ".toList ++ List.replicate 60 'e').length : Int)) ∧
      (24 : Int) - (pyIndent ("    ".toList ++ List.replicate 60 'e') : Int) = 20 ∧
      codeLine 24 ("    ".toList ++ List.replicate 60 'e') =
        .ok ["    ".toList ++ List.replicate 20 'e', List.replicate 40 'e'] ∧
      "    ".toList.isPrefixOf (List.replicate 40 'e') = false ∧
      wrap_text_for_terminal 80 ("```\n    ".toList ++ List.replicate 60 'e') (some 24) =
        .ok ("```\n    ".toList ++ List.replicate 20 'e' ++ '\n' :: List.replicate 40 'e') :=
  ⟨by decide, by decide, by rfl, by decide, by rfl⟩

/-- C6 (amended): re-applying the function at the same width returns the
first pass's output unchanged whenever that output has no line exceeding the
width and no nonempty whitespace-only line — in particular whenever no
hard-cut left an over-length remainder. -/
theorem c6_idempotent_on_clean_output (cols : Int) (t s : List Char) (w : Int)
    (hbox : hasBox t = false)
    (h1 : wrap_text_for_terminal cols t (some w) = .ok s)
    (h2 : ∀ l ∈ splitNL s, (l.length : Int) ≤ w ∧ (l.all isStrSpace = true → l = [])) :
    wrap_text_for_terminal cols s (some w) = .ok s := by
  simp only [wrap_text_for_terminal] at h1 ⊢
  rw [if_neg (show ¬hasBox t = true by simp [hbox])] at h1
  have hbs : hasBox s = false := hasBox_false_paragraphReflow hbox h1
  rw [if_neg (show ¬hasBox s = true by simp [hbs])]
  exact paragraphReflow_id w s h2

/-- C6 witness: prose already reflowed at width 40 reflows to itself again. -/
theorem c6_idempotent_on_clean_output_witness :
    wrap_text_for_terminal 80 ("one two\n\nthree".toList) (some 40) =
      .ok ("one two\n\nthree".toList) :=
  c6_idempotent_on_clean_output 80 ("one two\n\nthree".toList) ("one two\n\nthree".toList) 40
    (by decide) (by rfl) (by decide)

/-- C6 counterexample: a fenced code paragraph with a deeply indented
over-length line is hard-cut on the first pass, leaving a 40-character
remainder line; at width 24 the second pass word-fills that remainder, so
reflowing the output again changes it. -/
theorem c6_counterexample :
    hasBox ("```\n    ".toList ++ List.replicate 60 'c') = false ∧
      wrap_text_for_terminal 80 ("```\n    ".toList ++ List.replicate 60 'c') (some 24) =
        .ok ("```\n    ".toList ++ List.replicate 20 'c' ++ '\n' :: List.replicate 40 'c') ∧
      wrap_text_for_terminal 80
          ("```\n    ".toList ++ List.replicate 20 'c' ++ '\n' :: List.replicate 40 'c')
          (some 24) =
        .ok ("```\n    ".toList ++ List.replicate 20 'c' ++
          '\n' :: (List.replicate 24 'c' ++ '\n' :: List.replicate 16 'c')) ∧
      ("```\n    ".toList ++ List.replicate 20 'c' ++
          '\n' :: (List.replicate 24 'c' ++ '\n' :: List.replicate 16 'c')) ≠
        ("```\n    ".toList ++ List.replicate 20 'c' ++ '\n' :: List.replicate 40 'c') :=
  ⟨by decide, by rfl, by rfl, by decide⟩

/-- C7: if any box-drawing character occurs anywhere in the text, the entire
input is processed by the table-preserving path (no paragraph splitting);
otherwise it is split into paragraphs on blank lines, each processed, and
rejoined with blank lines — which is exactly what `paragraphReflow` does. -/
theorem c7_routing (cols : Int) (t : List Char) (w : Int) :
    (hasBox t = true → wrap_text_for_terminal cols t (some w) = tableReflow w t) ∧
      (hasBox t = false → wrap_text_for_terminal cols t (some w) = paragraphReflow w t) := by
  constructor
  · intro hb
    simp only [wrap_text_for_terminal]
    rw [if_pos hb]
  · intro hb
    simp only [wrap_text_for_terminal]
    rw [if_neg (show ¬hasBox t = true by simp [hb])]

/-- C7 witness: a mixed input that is 99% prose but contains one '│' routes
through the table path (so its whitespace-only line survives), while the
paragraph path would have blanked that line. -/
theorem c7_routing_witness :
    wrap_text_for_terminal 80 ("This is mostly prose.\n \nOne bar │ here".toList) (some 50) =
        tableReflow 50 ("This is mostly prose.\n \nOne bar │ here".toList) ∧
      wrap_text_for_terminal 80 ("plain text only".toList) (some 50) =
        paragraphReflow 50 ("plain text only".toList) ∧
      tableReflow 50 ("This is mostly prose.\n \nOne bar │ here".toList) =
        .ok ("This is mostly prose.\n \nOne bar │ here".toList) ∧
      paragraphReflow 50 ("This is mostly prose.\n \nOne bar │ here".toList) =
        .ok ("This is mostly prose.\n\nOne bar │ here".toList) ∧
      ("This is mostly prose.\n\nOne bar │ here".toList) ≠
        ("This is mostly prose.\n \nOne bar │ here".toList) :=
  ⟨(c7_routing 80 _ 50).1 (by decide), (c7_routing 80 _ 50).2 (by decide),
    by rfl, by rfl, by decide⟩

/-- C8: when the width argument is absent the effective width is
max(50, terminal_columns − 15); in particular a terminal width of 40 yields
effective width 50 (the floor), not 25. -/
theorem c8_width_default (cols : Int) (t : List Char) :
    wrap_text_for_terminal cols t none =
        wrap_text_for_terminal cols t (some (max 50 (cols - 15))) ∧
      wrap_text_for_terminal 40 t none = wrap_text_for_terminal 40 t (some 50) := by
  constructor
  · rfl
  · have h1 : wrap_text_for_terminal 40 t none =
        wrap_text_for_terminal 40 t (some (max 50 (40 - 15))) := rfl
    rw [show (max 50 ((40 : Int) - 15)) = (50 : Int) from by norm_num] at h1
    exact h1

/-- C9 (amended): an over-length code line is hard-cut exactly when the
remaining width after the indent is at most 20 columns; when it exceeds 20
the line is word-filled with the prefix re-applied. -/
theorem c9_boundary (w : Int) (line : List Char) (h1 : w < (line.length : Int)) :
    (w - (pyIndent line : Int) ≤ 20 →
        codeLine w line = .ok [pySliceTo line w, pySliceFrom line w]) ∧
      ((20 : Int) < w - (pyIndent line : Int) →
        ∃ f, textwrap_fill (line.drop (pyIndent line)) (w - (pyIndent line : Int)) = .ok f ∧
          codeLine w line = .ok ((splitNL f).map (fun l2 => line.take (pyIndent line) ++ l2))) :=
  ⟨fun h2 => codeLine_hardcut_eq w line h1 h2, fun h2 => codeLine_fill_eq w line h1 h2⟩

/-- C9 witness: remaining width 18 (≤ 20) hard-cuts at the width boundary. -/
theorem c9_boundary_witness :
    codeLine 21 ("   ".toList ++ List.replicate 40 'f') =
      .ok [pySliceTo ("   ".toList ++ List.replicate 40 'f') 21,
        pySliceFrom ("   ".toList ++ List.replicate 40 'f') 21] :=
  (c9_boundary 21 ("   ".toList ++ List.replicate 40 'f') (by decide)).1 (by decide)

/-- C9 counterexample: at a remaining width of exactly 20 the code hard-cuts
(the claim says 20 or more is word-filled with the prefix re-applied): the
remainder line of 30 'd's is emitted verbatim without the 2-space prefix. -/
theorem c9_counterexample :
    (22 : Int) - (pyIndent ("  ".toList ++ List.replicate 50 'd') : Int) = 20 ∧
      codeLine 22 ("  ".toList ++ List.replicate 50 'd') =
        .ok ["  ".toList ++ List.replicate 20 'd', List.replicate 30 'd'] ∧
      "  ".toList.isPrefixOf (List.replicate 30 'd') = false :=
  ⟨by decide, by rfl, by decide⟩

/-- C10: concatenating the lines emitted by the cell split-and-reassembly of
an over-length table line reproduces the original line exactly: no character
is lost or duplicated and every separator is retained in order. -/
theorem c10_no_char_lost (w : Int) (line : List Char)
    (hbar : line.contains '│' = true) (hlen : w < (line.length : Int)) :
    (tableCellSplit w line).flatten = line := by
  show (cellLoop w [] (splitOnChar '│' line)).flatten = line
  rw [cellLoop_flatten]
  simpa using joinSep_splitOnChar '│' line

/-- C10 witness: at width 3, the split of "x│yyyy│z" concatenates back to the
original line. -/
theorem c10_no_char_lost_witness :
    (tableCellSplit 3 ("x│yyyy│z".toList)).flatten = "x│yyyy│z".toList :=
  c10_no_char_lost 3 ("x│yyyy│z".toList) (by decide) (by decide)
